import Mathlib

/-!
Shallow embedding of the per-sample DSP primitives of `q_lib/include/q/sfx.hpp`
(namespace `cycfi::q`): `fast_downsample`, `dynamic_smoother`, `zero_cross`,
`peak` and `onset`, together with theorems about them.

Modelling conventions:
* The `fast_downsample` template is instantiated at its documented native
  integer sample type (`uint16_t`); machine integers are embedded as `Nat`
  with an explicit `% 2 ^ 16` at the points where C++ converts the promoted
  `int` intermediate back to the 16-bit sample type.
* `float` samples are embedded as exact rationals (`ℚ`) for the computable
  detectors, and the self-modulating smoother is embedded generically over a
  linear ordered field so that the same definition serves both the real-valued
  constructor (which needs `tan`) and concrete rational evaluation.
* Each C++ `operator()` both returns a value and mutates the object; it is
  embedded as a function `state → input → output × state`.
* `std::size_t` counters are embedded as `Nat` (the 64-bit wrap-around is
  unreachable on any realistic stream and is not modelled).
-/

/-! ### fast_downsample (sfx.hpp lines 28-39)

`T operator()(T s1, T s2)` for `T = uint16_t`:
```
auto out = x + (s1 >> 1);    // int arithmetic, exact
x = s2 >> 2;                 // converted back to T
return out + x;              // converted back to T
```
The sum `x + (s1 >> 1) + (s2 >> 2)` is at most `16383 + 32767 + 16383 = 65533`
for in-range inputs, so the final `% 2 ^ 16` conversions never actually wrap. -/

structure fast_downsample where
  x : Nat
  deriving DecidableEq

def fast_downsample.init : fast_downsample := ⟨0⟩

def fast_downsample.op (f : fast_downsample) (s1 s2 : Nat) : Nat × fast_downsample :=
  let out := f.x + (s1 >>> 1)
  let x' := (s2 >>> 2) % 65536
  ((out + x') % 65536, ⟨x'⟩)

/-- Run the downsampler over a list of argument pairs, collecting the outputs. -/
def fast_downsample.run (f : fast_downsample) : List (Nat × Nat) → List Nat
  | [] => []
  | (s1, s2) :: rest => ((f.op s1 s2).1) :: ((f.op s1 s2).2.run rest)

/-! ### zero_cross (sfx.hpp lines 126-160) -/

structure zero_cross where
  hysteresis : ℚ
  min_samples : Nat
  state : Bool
  count : Nat

/-- Constructor `zero_cross(hysteresis, min_period, sps)`:
`_min_samples = double(min_period) * sps` truncated to `std::size_t`. -/
def zero_cross.init (hysteresis min_period : ℚ) (sps : Nat) : zero_cross :=
  ⟨hysteresis, Nat.floor (min_period * sps), false, 0⟩

/-- Body of `float zero_cross::operator()(float s)`.  The C++ returns the
(bool) `_state` as a float; we return it as `Bool`.  `_count++` increments on
every call; on a transition the increment is overwritten with `0`. -/
def zero_cross.op (z : zero_cross) (s : ℚ) : Bool × zero_cross :=
  if z.count < z.min_samples then
    (z.state, { z with count := z.count + 1 })
  else if z.hysteresis < s ∧ z.state = false then
    (true, { z with state := true, count := 0 })
  else if s < -z.hysteresis ∧ z.state = true then
    (false, { z with state := false, count := 0 })
  else
    (z.state, { z with count := z.count + 1 })

def zero_cross.edge (z : zero_cross) : Bool := z.count == 0

/-- State after feeding the list of samples in order. -/
def zero_cross.runState (z : zero_cross) (xs : List ℚ) : zero_cross :=
  xs.foldl (fun z s => (z.op s).2) z

theorem zero_cross.op_min_samples (z : zero_cross) (s : ℚ) :
    (z.op s).2.min_samples = z.min_samples := by
  unfold zero_cross.op
  split
  · rfl
  · split
    · rfl
    · split
      · rfl
      · rfl

theorem zero_cross.op_hysteresis (z : zero_cross) (s : ℚ) :
    (z.op s).2.hysteresis = z.hysteresis := by
  unfold zero_cross.op
  split
  · rfl
  · split
    · rfl
    · split
      · rfl
      · rfl

/-- Each call either resets the counter (a transition, only possible past the
debounce window) or increments it. -/
theorem zero_cross.op_count (z : zero_cross) (s : ℚ) :
    ((z.op s).2.count = 0 ∧ z.min_samples ≤ z.count) ∨
      (z.op s).2.count = z.count + 1 := by
  unfold zero_cross.op
  split
  · right; rfl
  · rename_i h
    split
    · left; exact ⟨rfl, Nat.le_of_not_lt h⟩
    · split
      · left; exact ⟨rfl, Nat.le_of_not_lt h⟩
      · right; rfl

theorem zero_cross.runState_min_samples (z : zero_cross) (xs : List ℚ) :
    (z.runState xs).min_samples = z.min_samples := by
  induction xs generalizing z with
  | nil => rfl
  | cons a t ih =>
      show ((z.op a).2.runState t).min_samples = z.min_samples
      rw [ih, zero_cross.op_min_samples]

theorem zero_cross.runState_count_le (z : zero_cross) (xs : List ℚ) :
    (z.runState xs).count ≤ z.count + xs.length := by
  induction xs generalizing z with
  | nil => exact Nat.le_add_right _ _
  | cons a t ih =>
      show ((z.op a).2.runState t).count ≤ z.count + (t.length + 1)
      refine le_trans (ih _) ?_
      rcases zero_cross.op_count z a with ⟨h0, _⟩ | h1
      · rw [h0]; omega
      · rw [h1]; omega

/-- If the counter is zero after a nonempty run, the last call was a
transition, which can only happen at least `min_samples + 1` calls after the
last time the counter was zero. -/
theorem zero_cross.runState_count_zero (xs : List ℚ) (z : zero_cross)
    (h : (z.runState xs).count = 0) :
    xs = [] ∨ z.min_samples + 1 ≤ z.count + xs.length := by
  induction xs generalizing z with
  | nil => exact Or.inl rfl
  | cons a t ih =>
      right
      have h' : ((z.op a).2.runState t).count = 0 := h
      rcases ih (z.op a).2 h' with ht | hlen
      · subst ht
        have hc : (z.op a).2.count = 0 := h'
        rcases zero_cross.op_count z a with ⟨_, hmin⟩ | h1
        · simpa using Nat.add_le_add_right hmin 1
        · omega
      · rw [zero_cross.op_min_samples] at hlen
        rcases zero_cross.op_count z a with ⟨h0, _⟩ | h1
        · rw [h0] at hlen
          simp only [List.length_cons]
          omega
        · rw [h1] at hlen
          simp only [List.length_cons]
          omega

theorem zero_cross.edge_eq_true (z : zero_cross) : z.edge = true ↔ z.count = 0 := by
  simp [zero_cross.edge]

/-- C5: for every `zero_cross` instance with debounce window `min_samples` and
every input sequence, two calls that both report a transition (`edge()` true
immediately after the call) are at least `min_samples` calls apart.  (The code
in fact guarantees a gap of at least `min_samples + 1`.) -/
theorem zero_cross_debounce_spacing (z : zero_cross) (xs : List ℚ) (i j : Nat)
    (hij : i < j) (hj : j < xs.length)
    (hi : (z.runState (xs.take (i + 1))).edge = true)
    (hje : (z.runState (xs.take (j + 1))).edge = true) :
    z.min_samples ≤ j - i := by
  have hci : (z.runState (xs.take (i + 1))).count = 0 :=
    (zero_cross.edge_eq_true _).1 hi
  have hcj : (z.runState (xs.take (j + 1))).count = 0 :=
    (zero_cross.edge_eq_true _).1 hje
  have hsplit : xs.take (j + 1) =
      xs.take (i + 1) ++ (xs.drop (i + 1)).take (j - i) := by
    have : j + 1 = (i + 1) + (j - i) := by omega
    rw [this, List.take_add]
  have hrun : z.runState (xs.take (j + 1)) =
      (z.runState (xs.take (i + 1))).runState ((xs.drop (i + 1)).take (j - i)) := by
    rw [hsplit]
    unfold zero_cross.runState
    exact List.foldl_append _ _ _ _
  set zi := z.runState (xs.take (i + 1)) with hzi
  have hlen : ((xs.drop (i + 1)).take (j - i)).length = j - i := by
    simp only [List.length_take, List.length_drop]
    omega
  rcases zero_cross.runState_count_zero ((xs.drop (i + 1)).take (j - i)) zi
      (by rw [← hrun]; exact hcj) with hnil | hge
  · exfalso
    have : ((xs.drop (i + 1)).take (j - i)).length = 0 := by rw [hnil]; rfl
    omega
  · have hmin : zi.min_samples = z.min_samples := zero_cross.runState_min_samples _ _
    rw [hmin, hci, hlen] at hge
    omega

theorem zero_cross_debounce_spacing_witness :
    (1 : Nat) < 3 ∧ 3 < ([0, 1, 1, -1] : List ℚ).length ∧
    ((zero_cross.mk 0 1 false 0).runState (([0, 1, 1, -1] : List ℚ).take 2)).edge = true ∧
    ((zero_cross.mk 0 1 false 0).runState (([0, 1, 1, -1] : List ℚ).take 4)).edge = true ∧
    (zero_cross.mk 0 1 false 0).min_samples ≤ 3 - 1 :=
  ⟨by decide, by decide, by decide, by decide,
    zero_cross_debounce_spacing (zero_cross.mk 0 1 false 0) [0, 1, 1, -1] 1 3
      (by decide) (by decide) (by decide) (by decide)⟩

/-- C8: if every sample of the sequence lies strictly inside the open
hysteresis band `(-hysteresis, +hysteresis)`, the boolean state never changes
and no transition is ever triggered (the counter just keeps incrementing),
whatever the initial state. -/
theorem zero_cross_hysteresis_band (z : zero_cross) (xs : List ℚ)
    (hband : ∀ s ∈ xs, -z.hysteresis < s ∧ s < z.hysteresis) :
    (z.runState xs).state = z.state ∧ (z.runState xs).count = z.count + xs.length := by
  induction xs generalizing z with
  | nil => exact ⟨rfl, rfl⟩
  | cons a t ih =>
      obtain ⟨ha1, ha2⟩ := hband a (List.mem_cons_self a t)
      have hstep : (z.op a).2.state = z.state ∧ (z.op a).2.count = z.count + 1 := by
        unfold zero_cross.op
        split
        · exact ⟨rfl, rfl⟩
        · have hnot1 : ¬(z.hysteresis < a ∧ z.state = false) := by
            rintro ⟨hlt, -⟩; exact absurd ha2 (not_lt.2 (le_of_lt hlt))
          have hnot2 : ¬(a < -z.hysteresis ∧ z.state = true) := by
            rintro ⟨hlt, -⟩; exact absurd ha1 (not_lt.2 (le_of_lt hlt))
          rw [if_neg hnot1, if_neg hnot2]
          exact ⟨rfl, rfl⟩
      have hband' : ∀ s ∈ t, -(z.op a).2.hysteresis < s ∧ s < (z.op a).2.hysteresis := by
        intro s hs
        rw [zero_cross.op_hysteresis]
        exact hband s (List.mem_cons_of_mem a hs)
      obtain ⟨ihs, ihc⟩ := ih (z.op a).2 hband'
      refine ⟨?_, ?_⟩
      · show ((z.op a).2.runState t).state = z.state
        rw [ihs, hstep.1]
      · show ((z.op a).2.runState t).count = z.count + (a :: t).length
        rw [ihc, hstep.2]
        simp only [List.length_cons]
        omega

theorem zero_cross_hysteresis_band_witness :
    (∀ s ∈ ([0, 0, 0] : List ℚ), -(zero_cross.mk 1 0 false 5).hysteresis < s ∧
        s < (zero_cross.mk 1 0 false 5).hysteresis) ∧
    ((zero_cross.mk 1 0 false 5).runState [0, 0, 0]).state = false ∧
    ((zero_cross.mk 1 0 false 5).runState [0, 0, 0]).count = 8 :=
  ⟨by decide, (zero_cross_hysteresis_band (zero_cross.mk 1 0 false 5) [0, 0, 0]
      (by decide)).1, (zero_cross_hysteresis_band (zero_cross.mk 1 0 false 5)
      [0, 0, 0] (by decide)).2⟩

/-- C10: on a freshly constructed `zero_cross` (counter initialised to `0`,
the same value it holds right after a genuine transition), `edge()` already
returns `true` before any sample has been processed. -/
theorem zero_cross_fresh_edge (hysteresis min_period : ℚ) (sps : Nat) :
    (zero_cross.init hysteresis min_period sps).edge = true := rfl

theorem fast_downsample.op_shift (f : fast_downsample) (s1 s2 : Nat) :
    f.op s1 s2 = ((f.x + s1 / 2 + s2 / 4 % 65536) % 65536, ⟨s2 / 4 % 65536⟩) := by
  unfold fast_downsample.op
  have h1 : s1 >>> 1 = s1 / 2 := by rw [Nat.shiftRight_eq_div_pow]
  have h2 : s2 >>> 2 = s2 / 4 := by rw [Nat.shiftRight_eq_div_pow]
  rw [h1, h2]

/-- C7: on every call, the returned output is the carried remainder plus half
of `s1` plus a quarter of `s2` (integer halving and quartering, as the `>>`
shifts of the code compute), and the new carried remainder is a quarter of
`s2`; the initial remainder is zero.  For in-range 16-bit samples and a
remainder of the shape the filter itself produces (`x ≤ 16383`) the `uint16_t`
conversions never wrap. -/
theorem fast_downsample_op_formula (f : fast_downsample) (s1 s2 : Nat)
    (h1 : s1 < 65536) (h2 : s2 < 65536) (hx : f.x ≤ 16383) :
    (f.op s1 s2).1 = f.x + s1 / 2 + s2 / 4 ∧ (f.op s1 s2).2.x = s2 / 4 ∧
      fast_downsample.init.x = 0 := by
  rw [fast_downsample.op_shift]
  refine ⟨?_, ?_, rfl⟩
  · show (f.x + s1 / 2 + s2 / 4 % 65536) % 65536 = f.x + s1 / 2 + s2 / 4
    omega
  · show s2 / 4 % 65536 = s2 / 4
    omega

theorem fast_downsample_op_formula_witness :
    (7 : Nat) < 65536 ∧ (9 : Nat) < 65536 ∧ fast_downsample.init.x ≤ 16383 ∧
    (fast_downsample.init.op 7 9).1 = fast_downsample.init.x + 7 / 2 + 9 / 4 ∧
    (fast_downsample.init.op 7 9).2.x = 9 / 4 ∧ fast_downsample.init.x = 0 :=
  ⟨by decide, by decide, by decide,
    fast_downsample_op_formula fast_downsample.init 7 9 (by decide) (by decide) (by decide)⟩

/-- C3 counterexample: fed the constant stream `7` (both arguments `7` on
every call), the filter reaches the fixed point `x = 1` after the first call
and from then on outputs `5` forever — it converges, but to `5`, not to `7`,
so the DC gain is not `1` on this input. -/
theorem fast_downsample_dc_gain_counterexample :
    fast_downsample.init.run [(7, 7), (7, 7), (7, 7)] = [4, 5, 5] ∧
      fast_downsample.op ⟨1⟩ 7 7 = (5, ⟨1⟩) ∧ (5 : Nat) ≠ 7 := by decide

theorem fast_downsample.op_quarter_state (v : Nat) (hv : v < 65536) :
    (fast_downsample.init.op v v).2 = ⟨v / 4⟩ := by
  rw [fast_downsample.op_shift]
  show (⟨v / 4 % 65536⟩ : fast_downsample) = ⟨v / 4⟩
  have : v / 4 % 65536 = v / 4 := by omega
  rw [this]

theorem fast_downsample.op_const (v : Nat) (hv : v < 65536) :
    fast_downsample.op ⟨v / 4⟩ v v = (v / 2 + 2 * (v / 4), ⟨v / 4⟩) := by
  rw [fast_downsample.op_shift]
  have h3 : v / 4 % 65536 = v / 4 := by omega
  have h4 : (v / 4 + v / 2 + v / 4) % 65536 = v / 4 + v / 2 + v / 4 := by omega
  have h5 : v / 4 + v / 2 + v / 4 = v / 2 + 2 * (v / 4) := by omega
  rw [h3, h4, h5]

theorem fast_downsample.run_const (v : Nat) (hv : v < 65536) (n : Nat) :
    fast_downsample.run ⟨v / 4⟩ (List.replicate n (v, v)) =
      List.replicate n (v / 2 + 2 * (v / 4)) := by
  induction n with
  | zero => rfl
  | succ k ih =>
      rw [List.replicate_succ, List.replicate_succ]
      show (fast_downsample.op ⟨v / 4⟩ v v).1 ::
          ((fast_downsample.op ⟨v / 4⟩ v v).2.run (List.replicate k (v, v))) = _
      rw [fast_downsample.op_const v hv]
      show (v / 2 + 2 * (v / 4)) ::
          fast_downsample.run ⟨v / 4⟩ (List.replicate k (v, v)) =
        (v / 2 + 2 * (v / 4)) :: List.replicate k (v / 2 + 2 * (v / 4))
      rw [ih]

theorem list_getD_replicate (c : Nat) (m k : Nat) (h : k < m) :
    (List.replicate m c).getD k 0 = c := by
  induction m generalizing k with
  | zero => omega
  | succ t ih =>
      rw [List.replicate_succ]
      cases k with
      | zero => rfl
      | succ u => exact ih u (by omega)

/-- C3 amended: fed the constant stream `v`, every output from the second
call onward equals `v / 2 + 2 * (v / 4)` (integer arithmetic); this equals
`v` — DC gain `1` — exactly on inputs divisible by `4`. -/
theorem fast_downsample_dc_gain (v : Nat) (hv : v < 65536) (n i : Nat)
    (h1 : 1 ≤ i) (h2 : i < n) :
    (fast_downsample.init.run (List.replicate n (v, v))).getD i 0 = v / 2 + 2 * (v / 4) ∧
      (4 ∣ v → (fast_downsample.init.run (List.replicate n (v, v))).getD i 0 = v) := by
  obtain ⟨m, rfl⟩ : ∃ m, n = m + 1 := ⟨n - 1, by omega⟩
  obtain ⟨t, rfl⟩ : ∃ t, i = t + 1 := ⟨i - 1, by omega⟩
  have hrun : fast_downsample.init.run (List.replicate (m + 1) (v, v)) =
      (fast_downsample.init.op v v).1 ::
        List.replicate m (v / 2 + 2 * (v / 4)) := by
    rw [List.replicate_succ]
    show (fast_downsample.init.op v v).1 ::
        ((fast_downsample.init.op v v).2.run (List.replicate m (v, v))) = _
    rw [fast_downsample.op_quarter_state v hv, fast_downsample.run_const v hv]
  rw [hrun]
  have hget : ((fast_downsample.init.op v v).1 ::
      List.replicate m (v / 2 + 2 * (v / 4))).getD (t + 1) 0 =
      (List.replicate m (v / 2 + 2 * (v / 4))).getD t 0 := rfl
  rw [hget, list_getD_replicate _ m t (by omega)]
  exact ⟨rfl, fun hd => by omega⟩

theorem fast_downsample_dc_gain_witness :
    (8 : Nat) < 65536 ∧ (1 : Nat) ≤ 1 ∧ (1 : Nat) < 2 ∧
    (fast_downsample.init.run (List.replicate 2 (8, 8))).getD 1 0 = 8 / 2 + 2 * (8 / 4) ∧
      (4 ∣ 8 → (fast_downsample.init.run (List.replicate 2 (8, 8))).getD 1 0 = 8) :=
  ⟨by decide, by decide, by decide,
    fast_downsample_dc_gain 8 (by decide) 2 1 (by decide) (by decide)⟩

/-! ### peak and onset (sfx.hpp lines 172-228) -/

/-- Modelled from the spec: the `schmitt_trigger` comparator used by `peak`
is declared in `q/fx.hpp`, which is not among the sources.  Spec §6 describes
the consumed capability as "a hysteretic boolean comparator (two thresholds,
symmetric or configurable, retains last state)" and §9 of the glossary defines
hysteresis as a dead-band that must be exceeded in the opposite direction
before the state flips back: the output goes high when the signal exceeds the
reference plus the hysteresis, goes low when it falls below the reference
minus the hysteresis, and otherwise retains its last state. -/
structure schmitt_trigger where
  hysteresis : ℚ
  y : Bool
  deriving DecidableEq

def schmitt_trigger.op (c : schmitt_trigger) (s ref : ℚ) : Bool × schmitt_trigger :=
  if c.y = false ∧ ref + c.hysteresis < s then (true, { c with y := true })
  else if c.y = true ∧ s < ref - c.hysteresis then (false, { c with y := false })
  else (c.y, c)

/-- Source `peak` (sfx.hpp 172-185): compares the sample against the drooped
envelope through the schmitt trigger. -/
structure peak where
  droop : ℚ
  cmp : schmitt_trigger
  deriving DecidableEq

def peak.op (p : peak) (s env : ℚ) : Bool × peak :=
  ((p.cmp.op s (env * p.droop)).1, { p with cmp := (p.cmp.op s (env * p.droop)).2 })

/-- Constants `onset::droop = 0.8f` and `onset::hysteresis = 0.005f`,
idealised as exact rationals. -/
def onset.droop : ℚ := 4 / 5

def onset.hysteresis_const : ℚ := 1 / 200

structure onset where
  pk : peak
  min_samples : Nat
  state : Bool
  count : Nat
  current_peak : ℚ
  deriving DecidableEq

/-- Constructor `onset(min_period, sps)`. -/
def onset.init (min_period : ℚ) (sps : Nat) : onset :=
  ⟨⟨onset.droop, ⟨onset.hysteresis_const, false⟩⟩,
    Nat.floor (min_period * sps), false, 0, 0⟩

/-- Body of `bool onset::operator()(float s, float env)`.  The schmitt
comparator is consulted (and stepped) only past the debounce window; `_count++`
increments on every call and is overwritten with `0` on a transition. -/
def onset.op (o : onset) (s env : ℚ) : Bool × onset :=
  if o.count < o.min_samples then
    (o.state, { o with count := o.count + 1 })
  else if o.state = false ∧ (o.pk.op s env).1 = true then
    if o.current_peak < s then
      (true, { o with pk := (o.pk.op s env).2, state := true, count := 0,
                      current_peak := s })
    else
      (o.state, { o with pk := (o.pk.op s env).2, count := o.count + 1 })
  else if o.state = true ∧ (o.pk.op s env).1 = false then
    (false, { o with pk := (o.pk.op s env).2, state := false, count := 0 })
  else
    (o.state, { o with pk := (o.pk.op s env).2, count := o.count + 1 })

def onset.peak_val (o : onset) : ℚ := o.current_peak

def onset.reset (o : onset) : onset := { o with current_peak := 0 }

/-- C4: past the debounce window, the `onset` state machine transitions
exactly as specified: from quiet, when the internal peak detector fires and
the sample strictly exceeds the latched peak, it becomes active, latches the
sample and zeroes the counter; from active, when the peak detector stops
firing, it becomes quiet and zeroes the counter; in every other case the
state and latched peak are unchanged and the counter is not reset (it keeps
incrementing). -/
theorem onset_transition_rules (o : onset) (s env : ℚ)
    (hwin : o.min_samples ≤ o.count) :
    ((o.state = false ∧ (o.pk.op s env).1 = true ∧ o.current_peak < s) →
      (o.op s env).2.state = true ∧ (o.op s env).2.current_peak = s ∧
        (o.op s env).2.count = 0) ∧
    ((o.state = true ∧ (o.pk.op s env).1 = false) →
      (o.op s env).2.state = false ∧ (o.op s env).2.count = 0 ∧
        (o.op s env).2.current_peak = o.current_peak) ∧
    ((¬(o.state = false ∧ (o.pk.op s env).1 = true ∧ o.current_peak < s) ∧
        ¬(o.state = true ∧ (o.pk.op s env).1 = false)) →
      (o.op s env).2.state = o.state ∧
        (o.op s env).2.current_peak = o.current_peak ∧
        (o.op s env).2.count = o.count + 1) := by
  unfold onset.op
  rw [if_neg (not_lt.2 hwin)]
  refine ⟨?_, ?_, ?_⟩
  · rintro ⟨hs, hpk, hlt⟩
    rw [if_pos ⟨hs, hpk⟩, if_pos hlt]
    exact ⟨rfl, rfl, rfl⟩
  · rintro ⟨hs, hpk⟩
    have hn : ¬(o.state = false ∧ (o.pk.op s env).1 = true) := by
      rintro ⟨hs', -⟩
      rw [hs] at hs'
      cases hs'
    rw [if_neg hn, if_pos ⟨hs, hpk⟩]
    exact ⟨rfl, rfl, rfl⟩
  · rintro ⟨hn1, hn2⟩
    by_cases h1 : o.state = false ∧ (o.pk.op s env).1 = true
    · have hnlt : ¬ o.current_peak < s := fun hlt => hn1 ⟨h1.1, h1.2, hlt⟩
      rw [if_pos h1, if_neg hnlt]
      exact ⟨rfl, rfl, rfl⟩
    · rw [if_neg h1, if_neg hn2]
      exact ⟨rfl, rfl, rfl⟩

theorem onset_transition_rules_witness :
    (onset.mk ⟨1, ⟨1, false⟩⟩ 0 false 0 0).min_samples ≤
        (onset.mk ⟨1, ⟨1, false⟩⟩ 0 false 0 0).count ∧
    (((onset.mk ⟨1, ⟨1, false⟩⟩ 0 false 0 0).state = false ∧
        ((onset.mk ⟨1, ⟨1, false⟩⟩ 0 false 0 0).pk.op 3 1).1 = true ∧
        (onset.mk ⟨1, ⟨1, false⟩⟩ 0 false 0 0).current_peak < 3) →
      ((onset.mk ⟨1, ⟨1, false⟩⟩ 0 false 0 0).op 3 1).2.state = true ∧
        ((onset.mk ⟨1, ⟨1, false⟩⟩ 0 false 0 0).op 3 1).2.current_peak = 3 ∧
        ((onset.mk ⟨1, ⟨1, false⟩⟩ 0 false 0 0).op 3 1).2.count = 0) :=
  ⟨by decide,
    (onset_transition_rules (onset.mk ⟨1, ⟨1, false⟩⟩ 0 false 0 0) 3 1 (by decide)).1⟩

/-- A single `onset` call either leaves the latched peak unchanged or latches
the current sample during a quiet-to-active transition that strictly raises
it. -/
theorem onset.op_current_peak (o : onset) (s env : ℚ) :
    (o.op s env).2.current_peak = o.current_peak ∨
      (o.state = false ∧ (o.op s env).2.state = true ∧ (o.op s env).2.count = 0 ∧
        (o.pk.op s env).1 = true ∧ o.current_peak < s ∧
        (o.op s env).2.current_peak = s) := by
  unfold onset.op
  split
  · exact Or.inl rfl
  · split
    · rename_i h1
      split
      · rename_i h2
        exact Or.inr ⟨h1.1, rfl, rfl, h1.2, h2, rfl⟩
      · exact Or.inl rfl
    · split
      · exact Or.inl rfl
      · exact Or.inl rfl

/-- C6: across any sequence of operations, `current_peak` is never decreased
by `operator()`; it strictly increases only on a call that transitions the
machine from quiet to active with a sample strictly above the latched value
(which it then latches); `reset()` sets it to `0` and changes nothing else. -/
theorem onset_current_peak_monotone :
    (∀ (o : onset) (s env : ℚ), ¬ (o.op s env).2.current_peak < o.current_peak) ∧
    (∀ (o : onset) (s env : ℚ), o.current_peak < (o.op s env).2.current_peak →
      o.state = false ∧ (o.op s env).2.state = true ∧ o.current_peak < s ∧
        (o.op s env).2.current_peak = s) ∧
    (∀ o : onset, o.reset.current_peak = 0 ∧ o.reset.state = o.state ∧
      o.reset.count = o.count ∧ o.reset.pk = o.pk ∧
      o.reset.min_samples = o.min_samples) := by
  refine ⟨?_, ?_, fun o => ⟨rfl, rfl, rfl, rfl, rfl⟩⟩
  · intro o s env
    rcases onset.op_current_peak o s env with heq | ⟨-, -, -, -, hlt, hs⟩
    · rw [heq]
      exact lt_irrefl _
    · rw [hs]
      exact not_lt.2 (le_of_lt hlt)
  · intro o s env hinc
    rcases onset.op_current_peak o s env with heq | ⟨h1, h2, -, -, hlt, hs⟩
    · rw [heq] at hinc
      exact absurd hinc (lt_irrefl _)
    · exact ⟨h1, h2, hlt, hs⟩

theorem onset_current_peak_monotone_witness :
    (onset.mk ⟨1, ⟨1, false⟩⟩ 0 false 0 0).current_peak <
        ((onset.mk ⟨1, ⟨1, false⟩⟩ 0 false 0 0).op 3 1).2.current_peak ∧
    ((onset.mk ⟨1, ⟨1, false⟩⟩ 0 false 0 0).state = false ∧
      ((onset.mk ⟨1, ⟨1, false⟩⟩ 0 false 0 0).op 3 1).2.state = true ∧
      (onset.mk ⟨1, ⟨1, false⟩⟩ 0 false 0 0).current_peak < 3 ∧
      ((onset.mk ⟨1, ⟨1, false⟩⟩ 0 false 0 0).op 3 1).2.current_peak = 3) :=
  ⟨by norm_num [onset.op, peak.op, schmitt_trigger.op],
    onset_current_peak_monotone.2.1 (onset.mk ⟨1, ⟨1, false⟩⟩ 0 false 0 0) 3 1
      (by norm_num [onset.op, peak.op, schmitt_trigger.op])⟩

/-! ### dynamic_smoother (sfx.hpp lines 56-91)

The per-sample algorithm is purely field arithmetic, so it is embedded
generically over a linear ordered field (each float operation idealised as the
exact operation); only the constructor and the re-tune operation need `ℝ`,
through `tan`. -/

structure dynamic_smoother (α : Type) where
  sense : α
  wc : α
  g0 : α
  low1 : α
  low2 : α

/-- Body of `float dynamic_smoother::operator()(float s)` (lines 70-79). -/
def dynamic_smoother.op {α : Type} [LinearOrderedField α]
    (d : dynamic_smoother α) (s : α) : α × dynamic_smoother α :=
  let lowlz := d.low1
  let low2z := d.low2
  let bandz := lowlz - low2z
  let g := min (d.g0 + d.sense * |bandz|) 1
  let low1' := lowlz + g * (s - lowlz)
  let low2' := low2z + g * (low1' - low2z)
  (low2z, { d with low1 := low1', low2 := low2' })

/-- The dynamic gain `g` computed inside `operator()` from the pre-call state. -/
def dynamic_smoother.gain {α : Type} [LinearOrderedField α]
    (d : dynamic_smoother α) : α :=
  min (d.g0 + d.sense * |d.low1 - d.low2|) 1

theorem dynamic_smoother.op_eq {α : Type} [LinearOrderedField α]
    (d : dynamic_smoother α) (s : α) :
    d.op s = (d.low2,
      { d with low1 := d.low1 + d.gain * (s - d.low1),
               low2 := d.low2 + d.gain * ((d.low1 + d.gain * (s - d.low1)) - d.low2) }) := rfl

def dynamic_smoother.runState {α : Type} [LinearOrderedField α]
    (d : dynamic_smoother α) (xs : List α) : dynamic_smoother α :=
  xs.foldl (fun d s => (d.op s).2) d

def dynamic_smoother.runOutputs {α : Type} [LinearOrderedField α]
    (d : dynamic_smoother α) : List α → List α
  | [] => []
  | s :: rest => (d.op s).1 :: ((d.op s).2.runOutputs rest)

/-- Coefficient derivation shared by the constructor (lines 62-68) and
`base_frequency` (lines 81-86): `gc = tan(π·wc)`, `g0 = 2·gc/(1+gc)`. -/
noncomputable def dynamic_smoother.gZero (wc : ℝ) : ℝ :=
  2 * Real.tan (Real.pi * wc) / (1 + Real.tan (Real.pi * wc))

/-- Constructor `dynamic_smoother(base, sensitivity, sps)`:
`sense = sensitivity * 4`, `wc = base / sps`, `g0` from the bilinear prewarp. -/
noncomputable def dynamic_smoother.init (base sensitivity : ℝ) (sps : Nat) :
    dynamic_smoother ℝ :=
  { sense := sensitivity * 4
    wc := base / sps
    g0 := dynamic_smoother.gZero (base / sps)
    low1 := 0
    low2 := 0 }

/-- `void dynamic_smoother::base_frequency(frequency base, std::uint32_t sps)`. -/
noncomputable def dynamic_smoother.base_frequency (d : dynamic_smoother ℝ)
    (base : ℝ) (sps : Nat) : dynamic_smoother ℝ :=
  { d with wc := base / sps, g0 := dynamic_smoother.gZero (base / sps) }

theorem dynamic_smoother.runState_g0 {α : Type} [LinearOrderedField α]
    (d : dynamic_smoother α) (xs : List α) : (d.runState xs).g0 = d.g0 := by
  induction xs generalizing d with
  | nil => rfl
  | cons a t ih => exact ih (d.op a).2

theorem dynamic_smoother.runState_sense {α : Type} [LinearOrderedField α]
    (d : dynamic_smoother α) (xs : List α) : (d.runState xs).sense = d.sense := by
  induction xs generalizing d with
  | nil => rfl
  | cons a t ih => exact ih (d.op a).2

/-- C1: `operator()` returns the value the second stage held before this
call updates it, the dynamic gain is computed from the stage values as they
stood at the end of the previous call (bandpass term `low1 - low2` of the
pre-call state), and hence over any input sequence the `i`-th output equals
the second-stage value of the state reached after only the first `i` samples:
the output lags the state update by exactly one sample. -/
theorem dynamic_smoother_output_lag (α : Type) [LinearOrderedField α] :
    (∀ (d : dynamic_smoother α) (s : α),
        (d.op s).1 = d.low2 ∧
        (d.op s).2.low1 = d.low1 + d.gain * (s - d.low1) ∧
        (d.op s).2.low2 = d.low2 + d.gain * ((d.op s).2.low1 - d.low2)) ∧
    (∀ (d : dynamic_smoother α) (xs : List α) (i : Nat), i < xs.length →
        (d.runOutputs xs).getD i 0 = (d.runState (xs.take i)).low2) := by
  constructor
  · intro d s
    exact ⟨rfl, rfl, rfl⟩
  · intro d xs
    induction xs generalizing d with
    | nil =>
        intro i h
        simp at h
    | cons a t ih =>
        intro i h
        cases i with
        | zero => rfl
        | succ u =>
            have h' : u < t.length := by
              simp only [List.length_cons] at h
              omega
            exact ih (d.op a).2 u h'

theorem dynamic_smoother_output_lag_witness :
    1 < ([3, 5] : List ℚ).length ∧
    ((dynamic_smoother.mk 0 0 1 0 0 : dynamic_smoother ℚ).runOutputs [3, 5]).getD 1 0 =
      ((dynamic_smoother.mk 0 0 1 0 0 : dynamic_smoother ℚ).runState
        (([3, 5] : List ℚ).take 1)).low2 :=
  ⟨by decide,
    (dynamic_smoother_output_lag ℚ).2 (dynamic_smoother.mk 0 0 1 0 0) [3, 5] 1 (by decide)⟩

/-- C9: re-tuning with `base_frequency(base, sps)` recomputes `wc = base/sps`
and `g0 = 2·gc/(1+gc)` with `gc = tan(π·wc)` — so `g0` stays consistent with
the new `wc` — while leaving the stage states `low1`, `low2` and the
sensitivity `sense` untouched. -/
theorem dynamic_smoother_base_frequency_retune (d : dynamic_smoother ℝ)
    (base : ℝ) (sps : Nat) :
    (d.base_frequency base sps).wc = base / sps ∧
    (d.base_frequency base sps).g0 =
      2 * Real.tan (Real.pi * (base / sps)) / (1 + Real.tan (Real.pi * (base / sps))) ∧
    (d.base_frequency base sps).g0 =
      dynamic_smoother.gZero (d.base_frequency base sps).wc ∧
    (d.base_frequency base sps).low1 = d.low1 ∧
    (d.base_frequency base sps).low2 = d.low2 ∧
    (d.base_frequency base sps).sense = d.sense :=
  ⟨rfl, rfl, rfl, rfl, rfl, rfl⟩

theorem dynamic_smoother.tan_pi_mul_le_one (wc : ℝ) (h0 : 0 ≤ wc) (h1 : wc ≤ 1 / 4) :
    Real.tan (Real.pi * wc) ≤ 1 := by
  have hpi : (0 : ℝ) < Real.pi := Real.pi_pos
  have hx0 : 0 ≤ Real.pi * wc := mul_nonneg hpi.le h0
  have hx4 : Real.pi * wc ≤ Real.pi / 4 := by
    have := mul_le_mul_of_nonneg_left h1 hpi.le
    linarith
  have hmem1 : Real.pi * wc ∈ Set.Ioo (-(Real.pi / 2)) (Real.pi / 2) :=
    ⟨by linarith, by linarith⟩
  have hmem2 : Real.pi / 4 ∈ Set.Ioo (-(Real.pi / 2)) (Real.pi / 2) :=
    ⟨by linarith, by linarith⟩
  have hmono := Real.strictMonoOn_tan.monotoneOn hmem1 hmem2 hx4
  rwa [Real.tan_pi_div_four] at hmono

/-- With the base frequency at most a quarter of the sampling rate, the
normalised cutoff satisfies `wc ≤ 1/4`, so `gc = tan(π·wc) ∈ [0, 1]` and the
base gain `g0 = 2·gc/(1+gc)` is at most `1`. -/
theorem dynamic_smoother.gZero_le_one (wc : ℝ) (h0 : 0 ≤ wc) (h1 : wc ≤ 1 / 4) :
    dynamic_smoother.gZero wc ≤ 1 := by
  have hpi : (0 : ℝ) < Real.pi := Real.pi_pos
  have ht0 : 0 ≤ Real.tan (Real.pi * wc) :=
    Real.tan_nonneg_of_nonneg_of_le_pi_div_two (mul_nonneg hpi.le h0)
      (by nlinarith)
  have ht1 : Real.tan (Real.pi * wc) ≤ 1 :=
    dynamic_smoother.tan_pi_mul_le_one wc h0 h1
  unfold dynamic_smoother.gZero
  rw [div_le_one (by linarith)]
  linarith

/-- C2 counterexample: the claim quantifies over *any* base frequency and
sampling rate, but for `base = 3`, `sps = 10` (so `wc = 3/10 > 1/4`) the
constructor produces `g0 = 2·tan(0.3π)/(1+tan(0.3π)) > 1`, and on the freshly
constructed instance (zero stages, sensitivity `0`) the clamped dynamic gain
is `min(g0, 1) = 1 < g0`, violating `g0 ≤ g` on the very first call. -/
theorem dynamic_smoother_gain_counterexample :
    (dynamic_smoother.init 3 0 10).gain < (dynamic_smoother.init 3 0 10).g0 := by
  have hpi : (0 : ℝ) < Real.pi := Real.pi_pos
  have ht1 : (1 : ℝ) < Real.tan (Real.pi * (3 / 10)) := by
    have h1 : -(Real.pi / 2) < Real.pi / 4 := by linarith
    have h2 : Real.pi * (3 / 10) < Real.pi / 2 := by linarith
    have h3 : Real.pi / 4 < Real.pi * (3 / 10) := by linarith
    have htan := Real.tan_lt_tan_of_lt_of_lt_pi_div_two h1 h2 h3
    rwa [Real.tan_pi_div_four] at htan
  have hg0 : (dynamic_smoother.init 3 0 10).g0 =
      2 * Real.tan (Real.pi * (3 / 10)) / (1 + Real.tan (Real.pi * (3 / 10))) := by
    show dynamic_smoother.gZero ((3 : ℝ) / ((10 : Nat) : ℝ)) = _
    have hc : (3 : ℝ) / ((10 : Nat) : ℝ) = 3 / 10 := by norm_num
    rw [hc]
    rfl
  have hg1 : 1 < (dynamic_smoother.init 3 0 10).g0 := by
    rw [hg0, lt_div_iff₀ (by linarith)]
    linarith
  have hgain : (dynamic_smoother.init 3 0 10).gain = 1 := by
    show min ((dynamic_smoother.init 3 0 10).g0 + (0 : ℝ) * 4 * |(0 : ℝ) - 0|) 1 = 1
    have hz : (0 : ℝ) * 4 * |(0 : ℝ) - 0| = 0 := by norm_num
    rw [hz, add_zero, min_eq_right (le_of_lt hg1)]
  rw [hgain]
  exact hg1

/-- C2 amended: for every instance built with sensitivity `≥ 0` and base
frequency at most a quarter of the sampling rate (so that the base gain
satisfies `g0 ≤ 1` — the condition the original claim lacks), the dynamic
gain computed inside `operator()` on any reachable state satisfies
`g0 ≤ g ≤ 1`. -/
theorem dynamic_smoother_gain_bounds (base sensitivity : ℝ) (sps : Nat)
    (xs : List ℝ) (hsen : 0 ≤ sensitivity) (hb : 0 ≤ base)
    (hwc : base / (sps : ℝ) ≤ 1 / 4) :
    (dynamic_smoother.init base sensitivity sps).g0 ≤
        ((dynamic_smoother.init base sensitivity sps).runState xs).gain ∧
      ((dynamic_smoother.init base sensitivity sps).runState xs).gain ≤ 1 := by
  set d := (dynamic_smoother.init base sensitivity sps).runState xs with hd
  have hg0 : d.g0 = dynamic_smoother.gZero (base / (sps : ℝ)) := by
    rw [hd, dynamic_smoother.runState_g0]
    rfl
  have hsense : d.sense = sensitivity * 4 := by
    rw [hd, dynamic_smoother.runState_sense]
    rfl
  have hwc0 : 0 ≤ base / (sps : ℝ) := div_nonneg hb (Nat.cast_nonneg _)
  have hle1 : d.g0 ≤ 1 := by
    rw [hg0]
    exact dynamic_smoother.gZero_le_one _ hwc0 hwc
  have hg0init : (dynamic_smoother.init base sensitivity sps).g0 = d.g0 := by
    rw [hd, dynamic_smoother.runState_g0]
  constructor
  · rw [hg0init]
    show d.g0 ≤ min (d.g0 + d.sense * |d.low1 - d.low2|) 1
    refine le_min ?_ hle1
    have hnn : 0 ≤ d.sense * |d.low1 - d.low2| := by
      rw [hsense]
      exact mul_nonneg (by linarith) (abs_nonneg _)
    linarith
  · show min (d.g0 + d.sense * |d.low1 - d.low2|) 1 ≤ 1
    exact min_le_right _ _

theorem dynamic_smoother_gain_bounds_witness :
    (0 : ℝ) ≤ 0 ∧ (0 : ℝ) ≤ 1 ∧ (1 : ℝ) / ((8 : Nat) : ℝ) ≤ 1 / 4 ∧
    ((dynamic_smoother.init 1 0 8).g0 ≤
        ((dynamic_smoother.init 1 0 8).runState []).gain ∧
      ((dynamic_smoother.init 1 0 8).runState []).gain ≤ 1) :=
  ⟨le_refl 0, by norm_num, by norm_num,
    dynamic_smoother_gain_bounds 1 0 8 [] (le_refl 0) (by norm_num) (by norm_num)⟩
